import Mathlib

/-!
Shallow embedding of the core of the yt-sub-downloader repository
(src/utils/fetch_info.py and src/utils/subtitle_handler.py), together with
theorems settling the specification claims about the comment tree builder,
the caption normalizer, the archive packager and the batch subtitle fetcher.

Network calls (yt-dlp extraction, HTTP GET) are external collaborators; they
are modelled as explicit inputs (the raw comment list, a fetch oracle).
Everything downstream of those inputs is translated directly from the source.
-/

/-- Model of a Python scalar value as it appears in the raw comment records
returned by the external provider (string, int, bool, or None). -/
inductive PyVal where
  | vNone : PyVal
  | vInt (n : Int) : PyVal
  | vStr (s : String) : PyVal
  | vBool (b : Bool) : PyVal
deriving DecidableEq, Repr

/-- Python truthiness (`if not x`): None, 0, "" and False are falsy. -/
def pyTruthy : PyVal → Bool
  | .vNone => false
  | .vInt n => n != 0
  | .vStr s => s != ""
  | .vBool b => b

/-- Python `==` on scalar values; `True == 1` and `False == 0` hold in Python,
all cross-type comparisons are unequal. -/
def pyEq : PyVal → PyVal → Bool
  | .vNone, .vNone => true
  | .vInt a, .vInt b => a == b
  | .vInt a, .vBool b => a == (if b then (1 : Int) else 0)
  | .vBool a, .vInt b => (if a then (1 : Int) else 0) == b
  | .vBool a, .vBool b => a == b
  | .vStr a, .vStr b => a == b
  | _, _ => false

/-- Model of the Python `int(...)` coercion used on `like_count` fields:
ints pass through, bools become 0/1, numeric strings are parsed, and any
other value (None, non-numeric string) raises, modelled as `Except.error`. -/
def pyToInt : PyVal → Except Unit Int
  | .vInt n => .ok n
  | .vBool b => .ok (if b then 1 else 0)
  | .vStr s =>
      match s.trim.toInt? with
      | some n => .ok n
      | none => .error ()
  | .vNone => .error ()

/-- Python slice `l[:k]`: for non-negative `k` the first `k` elements, for
negative `k` all but the last `|k|` elements (empty when `|k| ≥ len(l)`). -/
def pySliceTo (l : List α) (k : Int) : List α :=
  if 0 ≤ k then l.take k.toNat else l.take (l.length - (-k).toNat)

/-- One raw comment record as produced by yt-dlp: a dict whose fields may be
absent (`none`) or hold an arbitrary scalar value. -/
structure RawComment where
  id : Option PyVal := none
  parent : Option PyVal := none
  author : Option PyVal := none
  text : Option PyVal := none
  like_count : Option PyVal := none
deriving DecidableEq, Repr

/-- One element of the raw comment list: either a dict-shaped record or some
other (non-dict) value, which the builder skips. -/
inductive RawEntry where
  | dictE (c : RawComment) : RawEntry
  | nonDict : RawEntry
deriving DecidableEq, Repr

/-- Reply node as built by `_mk_reply` in fetch_comments. -/
structure ReplyNode where
  cid : PyVal
  parent_cid : PyVal
  author : PyVal
  text : PyVal
  like_count : Int
deriving DecidableEq, Repr

/-- Root comment node as built by `_mk_root` in fetch_comments. -/
structure CommentNode where
  cid : PyVal
  author : PyVal
  text : PyVal
  like_count : Int
  replies : List ReplyNode
deriving DecidableEq, Repr

/-- Translation of `_mk_root` (fetch_info.py line 92); the like count argument
is the value of `int(c.get('like_count', 0))`, which the source computes a
second time with the same deterministic result. -/
def mk_root (c : RawComment) (like_count : Int) : CommentNode :=
  { cid := c.id.getD (.vStr "")
    author := c.author.getD (.vStr "Unknown")
    text := c.text.getD (.vStr "")
    like_count := like_count
    replies := [] }

/-- Translation of `_mk_reply` (fetch_info.py line 101). -/
def mk_reply (c : RawComment) (parent_cid : PyVal) (like_count : Int) : ReplyNode :=
  { cid := c.id.getD (.vStr "")
    parent_cid := parent_cid
    author := c.author.getD (.vStr "Unknown")
    text := c.text.getD (.vStr "")
    like_count := like_count }

/-- One iteration of the first pass of fetch_comments (lines 111-125):
skip non-dicts, classify as root when the parent is falsy or the string
'root', apply the respective like threshold, append to the accumulator.
The state is (potential_roots, collected qualifying replies in order); the
`defaultdict(list)` bucket for a parent id is recovered later by filtering
the collected replies on that id. -/
def classifyStep (min_likes min_reply_likes : Int)
    (st : List CommentNode × List ReplyNode) (e : RawEntry) :
    Except Unit (List CommentNode × List ReplyNode) :=
  match e with
  | .nonDict => .ok st
  | .dictE c =>
    let parent_id := c.parent.getD .vNone
    if !pyTruthy parent_id || pyEq parent_id (.vStr "root") then
      match pyToInt (c.like_count.getD (.vInt 0)) with
      | .error err => .error err
      | .ok like_count =>
        if min_likes ≤ like_count then .ok (st.1 ++ [mk_root c like_count], st.2)
        else .ok st
    else
      match pyToInt (c.like_count.getD (.vInt 0)) with
      | .error err => .error err
      | .ok reply_like_count =>
        if min_reply_likes ≤ reply_like_count then
          .ok (st.1, st.2 ++ [mk_reply c parent_id reply_like_count])
        else .ok st

/-- First pass of fetch_comments over the whole raw list (the `for c in
all_comments_raw` loop), threading the accumulator. -/
def classifyComments (min_likes min_reply_likes : Int) :
    List RawEntry → List CommentNode × List ReplyNode →
    Except Unit (List CommentNode × List ReplyNode)
  | [], st => .ok st
  | e :: rest, st =>
    match classifyStep min_likes min_reply_likes st e with
    | .error err => .error err
    | .ok st' => classifyComments min_likes min_reply_likes rest st'

/-- Comparator realizing Python `sort(key=lambda r: r['like_count'],
reverse=True)`: a stable sort placing larger like counts first. -/
def rootLe (a b : CommentNode) : Bool := b.like_count ≤ a.like_count

/-- Sorting pass of fetch_comments (lines 128-129): sort descending by like
count only in the 'top' mode. `List.mergeSort` is a stable sort, matching
Python's guarantee that `reverse=True` keeps ties in list order. -/
def sortRoots (sort_by : String) (roots : List CommentNode) : List CommentNode :=
  if sort_by = "top" then roots.mergeSort rootLe else roots

/-- Second pass of fetch_comments (lines 135-138): attach to a final root the
bucket of qualifying replies whose raw parent id equals the root's cid, when
the cid is truthy and the bucket is non-empty. -/
def attachReplies (replies : List ReplyNode) (root : CommentNode) : CommentNode :=
  if pyTruthy root.cid && replies.any (fun r => pyEq r.parent_cid root.cid) then
    { root with replies := replies.filter (fun r => pyEq r.parent_cid root.cid) }
  else root

/-- Translation of the pure core of `fetch_comments` (fetch_info.py lines
88-140), taking the raw comment list delivered by yt-dlp as input: classify
and filter, sort when requested, truncate with Python slice semantics, and
attach reply buckets. An `int()` failure on a like count propagates as an
error, exactly as the uncaught exception does in the source. -/
def fetch_comments (raw : List RawEntry) (top_k : Int) (sort_by : String)
    (min_likes min_reply_likes : Int) : Except Unit (List CommentNode) :=
  match classifyComments min_likes min_reply_likes raw ([], []) with
  | .error err => .error err
  | .ok (potential_roots, replies) =>
    .ok ((pySliceTo (sortRoots sort_by potential_roots) top_k).map
      (attachReplies replies))

/-! Caption normalizer (subtitle_handler.py lines 17-38). -/

/-- Split a character list at the first '>' character, returning the
characters before it and the characters after it, or `none` when absent. -/
def splitAtGt : List Char → Option (List Char × List Char)
  | [] => none
  | c :: rest =>
    if c = '>' then some ([], rest)
    else
      match splitAtGt rest with
      | none => none
      | some (pre, post) => some (c :: pre, post)

/-- Model of `re.sub(r'<[^>]+>', '', line)`: scan left to right; at a '<'
whose first following '>' is not immediately adjacent, delete through that
'>' and continue after it, otherwise keep the character. The fuel argument
only bounds the recursion (each step strictly shortens the text, so fuel
equal to the length never runs out). -/
def stripTagsF : Nat → List Char → List Char
  | 0, l => l
  | _ + 1, [] => []
  | fuel + 1, c :: rest =>
    if c = '<' then
      match splitAtGt rest with
      | some (pre, post) =>
        if pre.isEmpty then c :: stripTagsF fuel rest else stripTagsF fuel post
      | none => c :: stripTagsF fuel rest
    else c :: stripTagsF fuel rest

/-- Tag-stripping pass over the whole line. -/
def stripTags (l : List Char) : List Char := stripTagsF l.length l

/-- Recognizer for the text following an ampersand: the decoded character
and the remaining text, for the five standard XML entities. -/
def entityHere? : List Char → Option (Char × List Char)
  | 'a' :: 'm' :: 'p' :: ';' :: r => some ('&', r)
  | 'l' :: 't' :: ';' :: r => some ('<', r)
  | 'g' :: 't' :: ';' :: r => some ('>', r)
  | 'q' :: 'u' :: 'o' :: 't' :: ';' :: r => some ('"', r)
  | '#' :: '3' :: '9' :: ';' :: r => some ('\'', r)
  | _ => none

/-- Model of Python `html.unescape` restricted to the five standard XML
entities (amp, lt, gt, quot, apostrophe); any other text passes through
unchanged. Entities are decoded in one pass, as in the library. The fuel
argument only bounds the recursion (each step consumes at least one
character). -/
def htmlUnescapeF : Nat → List Char → List Char
  | 0, l => l
  | _ + 1, [] => []
  | fuel + 1, c :: rest =>
    if c = '&' then
      match entityHere? rest with
      | some (d, r) => d :: htmlUnescapeF fuel r
      | none => c :: htmlUnescapeF fuel rest
    else c :: htmlUnescapeF fuel rest

/-- Entity-decoding pass over the whole line. -/
def htmlUnescape (l : List Char) : List Char := htmlUnescapeF l.length l

/-- Substring test for the cue timing marker, modelling `'-->' in line`. -/
def hasArrow : List Char → Bool
  | '-' :: '-' :: '>' :: _ => true
  | _ :: rest => hasArrow rest
  | [] => false

/-- Model of `re.fullmatch(r'\d+', line)`: non-empty and all digits. -/
def isNumericLine (l : List Char) : Bool := !l.isEmpty && l.all Char.isDigit

/-- Model of Python `str.split('\n')`: the newline-separated segments,
including empty ones (the empty text yields one empty segment). -/
def pySplitNl : List Char → List (List Char)
  | [] => [[]]
  | c :: rest =>
    if c = '\n' then [] :: pySplitNl rest
    else
      match pySplitNl rest with
      | [] => [[c]]
      | seg :: segs => (c :: seg) :: segs

/-- Model of Python `str.strip()`: drop whitespace from both ends. -/
def trimChars (l : List Char) : List Char :=
  ((l.dropWhile Char.isWhitespace).reverse.dropWhile Char.isWhitespace).reverse

/-- Filtering and cleaning of a single line by convert_vtt_to_txt (lines
22-27): strip, discard blank, timing, cue-index and header lines, and clean
retained lines by tag stripping followed by entity decoding. -/
def processLine (line : List Char) : Option (List Char) :=
  let t := trimChars line
  let up := t.map Char.toUpper
  if t.isEmpty || hasArrow t || isNumericLine t ||
      "WEBVTT".data.isPrefixOf up || "KIND:".data.isPrefixOf up ||
      "LANGUAGE:".data.isPrefixOf up then
    none
  else
    some (htmlUnescape (stripTags t))

/-- Tail of the duplicate-collapsing comprehension of line 28: keep each
element that differs from its predecessor in the original list. -/
def dedupStep [DecidableEq α] (prev : α) : List α → List α
  | [] => []
  | y :: ys => if y = prev then dedupStep y ys else y :: dedupStep y ys

/-- Model of line 28: `[line for i, line in enumerate(ls) if i == 0 or
line != ls[i-1]]`. -/
def dedupAdjacent [DecidableEq α] : List α → List α
  | [] => []
  | x :: xs => x :: dedupStep x xs

/-- Emitted line list of convert_vtt_to_txt: split the stripped input on
newlines, filter and clean each line, collapse adjacent duplicates. -/
def vttLines (s : String) : List (List Char) :=
  dedupAdjacent ((pySplitNl (trimChars s.data)).filterMap processLine)

/-- Translation of `convert_vtt_to_txt` (subtitle_handler.py lines 17-29). -/
def convert_vtt_to_txt (s : String) : String :=
  if s = "" then "" else String.mk (List.intercalate ['\n'] (vttLines s))

/-- Decision procedure for whether the regex `<[^>]+>` matches somewhere in
the text: state 0 scans with no open '<', state 1 is immediately after a
'<' with empty content so far, state 2 means some '<' is open with at least
one non-'>' content character after it. A '<' seen while a tag is already
open is itself a content character (the class `[^>]` admits '<'), so it
moves state 1 to state 2 and keeps state 2; a '>' in state 2 closes a
match. The predicate is proved equivalent to the declarative reading
`containsTagSpec` below. -/
def hasTagAux : Nat → List Char → Bool
  | _, [] => false
  | st, c :: rest =>
    if c = '<' then hasTagAux (if st = 0 then 1 else 2) rest
    else if c = '>' then (if st = 2 then true else hasTagAux 0 rest)
    else if st = 0 then hasTagAux 0 rest else hasTagAux 2 rest

/-- True when the text contains an inline markup tag, i.e. a match of the
regex `<[^>]+>` used by the source to strip tags. -/
def hasTag (s : String) : Bool := hasTagAux 0 s.data

/-- Declarative reading of "the text contains a match of `<[^>]+>`": a '<',
then at least one character none of which is '>', then a '>'. -/
def containsTagSpec (l : List Char) : Prop :=
  ∃ pre mid post, l = pre ++ '<' :: (mid ++ '>' :: post) ∧ mid ≠ [] ∧ '>' ∉ mid

/-- Recognizer for the exact 12-character timestamp shape `HH:MM:SS.mmm`
targeted by the regex in convert_vtt_to_srt (line 37). -/
def isDotTsChunk : List Char → Bool
  | [a, b, c, d, e, f, g, h, i, j, k, m] =>
    a.isDigit && b.isDigit && c == ':' && d.isDigit && e.isDigit && f == ':' &&
    g.isDigit && h.isDigit && i == '.' && j.isDigit && k.isDigit && m.isDigit
  | _ => false

/-- Attempted timestamp match at the head of the text: the next 12
characters when they form `HH:MM:SS.mmm`, with the remaining text. -/
def tsHere? (l : List Char) : Option (List Char × List Char) :=
  if isDotTsChunk (l.take 12) then some (l.take 12, l.drop 12) else none

/-- Decomposition of the text into the chunks scanned by
`re.sub(r'(\d{2}:\d{2}:\d{2})\.(\d{3})', r'\1,\2', content)`: a `true`
chunk is a leftmost non-overlapping 12-character timestamp match, a
`false` chunk is a single character outside every match. The fuel argument
only bounds the recursion (each step consumes at least one character). -/
def tsChunksF : Nat → List Char → List (Bool × List Char)
  | 0, _ => []
  | _ + 1, [] => []
  | fuel + 1, c :: rest =>
    match tsHere? (c :: rest) with
    | some (m, rest') => (true, m) :: tsChunksF fuel rest'
    | none => (false, [c]) :: tsChunksF fuel rest

/-- Chunk decomposition of the whole text. -/
def tsChunks (l : List Char) : List (Bool × List Char) := tsChunksF l.length l

/-- Replacement `\1,\2` applied to one matched chunk: the millisecond
separator at position 8 becomes a comma. -/
def tsToComma : List Char → List Char
  | a :: b :: c :: d :: e :: f :: g :: h :: _ :: rest =>
    a :: b :: c :: d :: e :: f :: g :: h :: ',' :: rest
  | l => l

/-- Timestamp-rewriting pass: every matched chunk is rewritten, every other
character is copied unchanged. -/
def convertTimestamps (l : List Char) : List Char :=
  (tsChunks l).flatMap (fun p => if p.1 then tsToComma p.2 else p.2)

/-- Model of `re.sub(r'WEBVTT\s*', '', content)`: delete every occurrence of
the literal WEBVTT together with the whitespace run that follows it. The
fuel argument only bounds the recursion (each step consumes at least one
character). -/
def removeWebvttF : Nat → List Char → List Char
  | 0, l => l
  | _ + 1, [] => []
  | fuel + 1, 'W' :: 'E' :: 'B' :: 'V' :: 'T' :: 'T' :: rest =>
    removeWebvttF fuel (rest.dropWhile Char.isWhitespace)
  | fuel + 1, c :: rest => c :: removeWebvttF fuel rest

/-- Header-removal pass over the whole text. -/
def removeWebvtt (l : List Char) : List Char := removeWebvttF l.length l

/-- Intermediate text of convert_vtt_to_srt (line 34): header occurrences
removed, then stripped of surrounding whitespace. -/
def srtPre (s : String) : List Char :=
  trimChars (removeWebvtt s.data)

/-- Translation of `convert_vtt_to_srt` (subtitle_handler.py lines 31-38). -/
def convert_vtt_to_srt (s : String) : String :=
  if s = "" then "" else String.mk (convertTimestamps (srtPre s))

/-- True when the text still contains an occurrence of the dot-form
timestamp `HH:MM:SS.mmm` at some position. -/
def hasDotTs : List Char → Bool
  | [] => false
  | c :: rest => (tsHere? (c :: rest)).isSome || hasDotTs rest

/-! Archive packager (subtitle_handler.py lines 40-52). The zipfile
container is abstracted to the ordered list of entries written by
`zipf.writestr`; payloads are byte lists and `if content:` is Python bytes
truthiness (non-emptiness). -/

/-- Translation of `create_zip_in_memory`: `None` on an empty entry dict,
otherwise the archive holding exactly the entries with truthy payloads, in
input order. -/
def create_zip_in_memory (files_data : List (String × List UInt8)) :
    Option (List (String × List UInt8)) :=
  if files_data.isEmpty then none
  else some (files_data.filter (fun e => !e.2.isEmpty))

/-! Concurrent fetcher and batch retriever (subtitle_handler.py lines
55-113). The network is modelled by a fetch oracle returning either a
result (content or no content) or an uncaught exception; thread-pool
completion order is modelled by an explicit permutation of the submitted
entries. -/

/-- Translation of `fetch_url_content`: an oracle failure (the
RequestException branch, or any exception surfaced through
`future.result()` and caught at line 85) is recorded as no content. -/
def fetch_url_content (fetch : α → Except Unit (Option String)) (url : α) :
    Option String :=
  match fetch url with
  | .ok v => v
  | .error _ => none

/-- Translation of `download_subtitles_concurrently`: one task per entry of
the language-to-URL dict; `completion` is the order in which
`as_completed` yields the futures, a permutation of the submitted entries;
each task's result or swallowed failure is recorded under its language. -/
def download_subtitles_concurrently (fetch : α → Except Unit (Option String))
    (completion : List (String × α)) : List (String × Option String) :=
  completion.map (fun p => (p.1, fetch_url_content fetch p.2))

/-- Python dict assignment on an insertion-ordered association list:
update in place when the key exists, append otherwise. -/
def dictInsert (k : String) (v : α) : List (String × α) → List (String × α)
  | [] => [(k, v)]
  | p :: rest => if p.1 = k then (k, v) :: rest else p :: dictInsert k v rest

/-- Python dict lookup returning `none` for a missing key (`d.get(k)`). -/
def dictGet? (d : List (String × α)) (k : String) : Option α :=
  (d.find? (fun p => p.1 == k)).map (fun p => p.2)

/-- Python `k in d` membership test on a dict. -/
def dictContains (d : List (String × α)) (k : String) : Bool :=
  d.any (fun p => p.1 == k)

/-- One encoding entry of a caption track: `ext` and `url` as optionally
present fields (`fmt.get('ext')`, `fmt.get('url')`). -/
structure SubFormat where
  ext : Option String := none
  url : Option String := none
deriving DecidableEq, Repr

/-- One value of the catalog built by get_available_subtitles. -/
structure SubEntry where
  name : String
  auto : Bool
  formats : List SubFormat
deriving DecidableEq, Repr

/-- URL resolution loop of download_subtitles_in_batch (lines 101-108): for
each requested language present in the catalog, the URL of its first
encoding whose ext tag is 'vtt', when any. -/
def resolveTargetUrls (langs : List String)
    (all_sub_info : List (String × SubEntry)) : List (String × Option String) :=
  langs.foldl
    (fun d lang =>
      match dictGet? all_sub_info lang with
      | none => d
      | some entry =>
        match entry.formats.find? (fun f => f.ext == some "vtt") with
        | none => d
        | some f => dictInsert lang f.url d)
    []

/-- Translation of `download_subtitles_in_batch` (lines 92-113). The
concurrent fetch is invoked with the resolved URL dict in insertion order
as its completion order; the schedule nondeterminism is studied separately
on download_subtitles_concurrently. -/
def download_subtitles_in_batch (fetch : Option String → Except Unit (Option String))
    (langs_to_download : List String) (all_sub_info : List (String × SubEntry)) :
    List (String × Option String) :=
  if langs_to_download.isEmpty || all_sub_info.isEmpty then []
  else
    let target_urls := resolveTargetUrls langs_to_download all_sub_info
    if target_urls.isEmpty then langs_to_download.map (fun l => (l, none))
    else download_subtitles_concurrently fetch target_urls

/-- Python `d.get(k)` on a fetch-result mapping, as the caller reads the
batch result (`all_contents.get(lang)`, app.py lines 81 and 252): a missing
key and a stored no-content value both resolve to absent content, and the
lookup never raises. -/
def fetchResultGet (d : List (String × Option String)) (k : String) :
    Option String :=
  match dictGet? d k with
  | none => none
  | some v => v

/-! Subtitle catalog builder (fetch_info.py lines 38-54). -/

/-- Metadata document fields used by get_available_subtitles; a field is
`none` when the key is missing or its value is not a dict. -/
structure VideoInfo where
  subtitles : Option (List (String × List SubFormat)) := none
  automatic_captions : Option (List (String × List SubFormat)) := none

/-- Prefix allow-list for automatic captions (fetch_info.py line 40). -/
def COMMON_LANGS : List String := ["zh-Hant", "zh-Hans", "en"]

/-- Body of the automatic-captions loop (lines 47-53): take the first
allow-listed language-code stem the language starts with (the inner loop
breaks at its first hit); add the track only when that stem was not used
for an earlier automatic track and the language is not already in the
catalog, recording the stem as used. -/
def addAutoStep (st : List (String × SubEntry) × List String)
    (p : String × List SubFormat) : List (String × SubEntry) × List String :=
  match COMMON_LANGS.find? (fun pre => p.1.startsWith pre) with
  | none => st
  | some pre =>
    if !(st.2.contains pre) && !(dictContains st.1 p.1) then
      (dictInsert p.1 { name := p.1, auto := true, formats := p.2 } st.1,
       pre :: st.2)
    else st

/-- Body of the manual-subtitles loop (lines 42-44): record each language's
track under its language code. -/
def addManualStep (d : List (String × SubEntry))
    (p : String × List SubFormat) : List (String × SubEntry) :=
  dictInsert p.1 { name := p.1, auto := false, formats := p.2 } d

/-- Translation of `get_available_subtitles` (fetch_info.py lines 38-54). -/
def get_available_subtitles (info : Option VideoInfo) : List (String × SubEntry) :=
  match info with
  | none => []
  | some i =>
    let manual := (i.subtitles.getD []).foldl addManualStep []
    ((i.automatic_captions.getD []).foldl addAutoStep (manual, [])).1

/-! Theorems settling the claims. Helper lemmas come first; each claim is
settled by one named theorem (with a witness or counterexample where
required). -/

theorem dictGet?_nil (k : String) : dictGet? ([] : List (String × α)) k = none := rfl

/-- C3 counterexample: a dict holding a single entry with an empty payload is
truthy, so the source builds and returns an empty archive rather than None;
the claim that `pack({"a": b""})` yields absent is false. -/
theorem create_zip_empty_payload_counterexample :
    create_zip_in_memory [("a", ([] : List UInt8))] = some [] ∧
    create_zip_in_memory [("a", ([] : List UInt8))] ≠ none := by
  constructor
  · rfl
  · intro h
    simp [create_zip_in_memory] at h

/-- C3 (amended): pack({}) yields absent, and the archive excludes every
entry whose payload is empty, with pack({"a": b"x", "b": b""}) holding
exactly the entry "a"; but a non-empty entry dict always yields a present
archive — pack({"a": b""}) is a present empty archive, not absent, because
the source tests the dict for emptiness before skipping empty payloads. -/
theorem create_zip_in_memory_spec :
    create_zip_in_memory ([] : List (String × List UInt8)) = none ∧
    (∀ (files : List (String × List UInt8)) (l : List (String × List UInt8)),
      create_zip_in_memory files = some l →
        l = files.filter (fun e => !e.2.isEmpty)) ∧
    (∀ files : List (String × List UInt8),
      create_zip_in_memory files = none → files = []) ∧
    create_zip_in_memory [("a", [120]), ("b", ([] : List UInt8))] =
      some [("a", [120])] := by
  refine ⟨rfl, ?_, ?_, by rfl⟩
  · intro files l h
    unfold create_zip_in_memory at h
    split at h
    · simp at h
    · simp at h
      exact h.symm
  · intro files h
    unfold create_zip_in_memory at h
    split at h
    · next he => exact List.isEmpty_iff.mp he
    · simp at h

theorem create_zip_in_memory_spec_witness :
    ([("a", ([120] : List UInt8))] : List (String × List UInt8)) =
      [("a", ([120] : List UInt8)), ("b", [])].filter (fun e => !e.2.isEmpty) :=
  create_zip_in_memory_spec.2.1 [("a", [120]), ("b", [])] [("a", [120])] rfl

/-- C2: for any catalog in which "en" has a vtt encoding and "fr" has none
(or is absent from the catalog), the resolved URL set has exactly one
entry, keyed "en"; the batch retriever never raises, its result mapping
holds only the key "en", and the caller's dictionary get of "fr" on that
mapping resolves to an explicit absent value (no content). -/
theorem download_subtitles_in_batch_only_en
    (cat : List (String × SubEntry)) (e : SubEntry) (f : SubFormat)
    (fetch : Option String → Except Unit (Option String))
    (hen : dictGet? cat "en" = some e)
    (hf : e.formats.find? (fun g => g.ext == some "vtt") = some f)
    (hfr : dictGet? cat "fr" = none ∨
      ∃ e', dictGet? cat "fr" = some e' ∧
        e'.formats.find? (fun g => g.ext == some "vtt") = none) :
    resolveTargetUrls ["en", "fr"] cat = [("en", f.url)] ∧
    download_subtitles_in_batch fetch ["en", "fr"] cat =
      [("en", fetch_url_content fetch f.url)] ∧
    (download_subtitles_in_batch fetch ["en", "fr"] cat).map Prod.fst = ["en"] ∧
    fetchResultGet (download_subtitles_in_batch fetch ["en", "fr"] cat) "fr" =
      none := by
  have hres : resolveTargetUrls ["en", "fr"] cat = [("en", f.url)] := by
    unfold resolveTargetUrls
    simp only [List.foldl_cons, List.foldl_nil]
    rcases hfr with hfr | ⟨e', he', hg⟩
    · simp only [hen, hfr, hf]
      rfl
    · simp only [hen, he', hg, hf]
      rfl
  have hcat : cat.isEmpty = false := by
    cases cat with
    | nil => rw [dictGet?_nil] at hen; exact absurd hen (by simp)
    | cons p rest => rfl
  have hbatch : download_subtitles_in_batch fetch ["en", "fr"] cat =
      [("en", fetch_url_content fetch f.url)] := by
    unfold download_subtitles_in_batch
    rw [hcat]
    simp only [List.isEmpty_cons, Bool.false_or, Bool.or_false, if_false]
    rw [hres]
    rfl
  refine ⟨hres, hbatch, by rw [hbatch]; rfl, by rw [hbatch]; rfl⟩

theorem download_subtitles_in_batch_only_en_witness :
    resolveTargetUrls ["en", "fr"]
        [("en", ⟨"en", false, [⟨some "vtt", some "u"⟩]⟩)] = [("en", some "u")] ∧
    download_subtitles_in_batch (fun _ => .ok none) ["en", "fr"]
        [("en", ⟨"en", false, [⟨some "vtt", some "u"⟩]⟩)] = [("en", none)] ∧
    (download_subtitles_in_batch (fun _ => .ok none) ["en", "fr"]
        [("en", ⟨"en", false, [⟨some "vtt", some "u"⟩]⟩)]).map Prod.fst = ["en"] ∧
    fetchResultGet (download_subtitles_in_batch (fun _ => .ok none) ["en", "fr"]
        [("en", ⟨"en", false, [⟨some "vtt", some "u"⟩]⟩)]) "fr" = none :=
  download_subtitles_in_batch_only_en
    [("en", ⟨"en", false, [⟨some "vtt", some "u"⟩]⟩)]
    ⟨"en", false, [⟨some "vtt", some "u"⟩]⟩ ⟨some "vtt", some "u"⟩
    (fun _ => .ok none) rfl rfl (Or.inl rfl)

/-- C9: for every track-to-URL mapping and every completion order of its
tasks, the concurrent fetcher returns a mapping with exactly the requested
keys, each bound to the isolated outcome of its own fetch (content, or
absent when that single fetch failed); one task's failure never removes or
alters another track's entry. -/
theorem download_subtitles_concurrently_total {α : Type}
    (fetch : α → Except Unit (Option String)) (m completion : List (String × α))
    (hperm : completion.Perm m) :
    ((download_subtitles_concurrently fetch completion).map Prod.fst).Perm
      (m.map Prod.fst) ∧
    (download_subtitles_concurrently fetch completion).length = m.length ∧
    (∀ p ∈ m, (p.1, fetch_url_content fetch p.2) ∈
      download_subtitles_concurrently fetch completion) ∧
    (∀ q ∈ download_subtitles_concurrently fetch completion,
      ∃ p ∈ m, q = (p.1, fetch_url_content fetch p.2)) := by
  refine ⟨?_, ?_, ?_, ?_⟩
  · have : (download_subtitles_concurrently fetch completion).map Prod.fst =
        completion.map Prod.fst := by
      unfold download_subtitles_concurrently
      rw [List.map_map]
      rfl
    rw [this]
    exact hperm.map Prod.fst
  · unfold download_subtitles_concurrently
    rw [List.length_map]
    exact hperm.length_eq
  · intro p hp
    have hp' : p ∈ completion := (hperm.mem_iff).mpr hp
    exact List.mem_map_of_mem _ hp'
  · intro q hq
    unfold download_subtitles_concurrently at hq
    obtain ⟨p, hp, rfl⟩ := List.mem_map.mp hq
    exact ⟨p, (hperm.mem_iff).mp hp, rfl⟩

theorem download_subtitles_concurrently_total_witness :
    ("en", (none : Option String)) ∈
      download_subtitles_concurrently (fun _ : String => .error ())
        [("en", "u-en"), ("fr", "u-fr")] :=
  (download_subtitles_concurrently_total (fun _ : String => .error ())
      [("en", "u-en"), ("fr", "u-fr")] [("en", "u-en"), ("fr", "u-fr")]
      (List.Perm.refl _)).2.2.1 ("en", "u-en") (by simp)

theorem splitAtGt_none {l : List Char} (h : splitAtGt l = none) : '>' ∉ l := by
  induction l with
  | nil => simp
  | cons c rest ih =>
    simp only [splitAtGt] at h
    split at h
    · exact absurd h (by simp)
    · next hc =>
      cases hs : splitAtGt rest with
      | none =>
        intro hm
        rcases List.mem_cons.mp hm with h1 | h2
        · exact hc h1.symm
        · exact (ih hs) h2
      | some pr =>
        obtain ⟨a, b⟩ := pr
        rw [hs] at h
        simp at h

theorem splitAtGt_decomp :
    ∀ {l pre post : List Char}, splitAtGt l = some (pre, post) →
      l = pre ++ '>' :: post ∧ '>' ∉ pre := by
  intro l
  induction l with
  | nil => intro pre post h; simp [splitAtGt] at h
  | cons c rest ih =>
    intro pre post h
    simp only [splitAtGt] at h
    split at h
    · next hc =>
      simp at h
      obtain ⟨h1, h2⟩ := h
      subst h1
      subst h2
      subst hc
      exact ⟨rfl, by simp⟩
    · next hc =>
      cases hs : splitAtGt rest with
      | none => rw [hs] at h; simp at h
      | some pr =>
        obtain ⟨pre', post'⟩ := pr
        rw [hs] at h
        simp at h
        obtain ⟨h1, h2⟩ := h
        obtain ⟨hd, hnp⟩ := ih hs
        subst h1
        subst h2
        refine ⟨by rw [hd]; rfl, ?_⟩
        intro hm
        rcases List.mem_cons.mp hm with h1 | h2
        · exact hc h1.symm
        · exact hnp h2

theorem stripTagsF_sublist :
    ∀ (fuel : Nat) (l : List Char), (stripTagsF fuel l).Sublist l := by
  intro fuel
  induction fuel with
  | zero => intro l; exact List.Sublist.refl l
  | succ f ih =>
    intro l
    cases l with
    | nil => exact List.Sublist.refl []
    | cons c rest =>
      simp only [stripTagsF]
      split
      · cases hs : splitAtGt rest with
        | some pr =>
          obtain ⟨pre, post⟩ := pr
          dsimp only
          split
          · exact (ih rest).cons₂ c
          · obtain ⟨hd, -⟩ := splitAtGt_decomp hs
            have h1 : post.Sublist rest := by
              rw [hd]
              exact ((List.sublist_cons_self '>' post).trans
                (List.sublist_append_right pre ('>' :: post)))
            exact ((ih post).trans h1).cons c
        | none =>
          dsimp only
          exact (ih rest).cons₂ c
      · exact (ih rest).cons₂ c

theorem hasTagAux_of_no_gt : ∀ {l : List Char}, '>' ∉ l → ∀ st, hasTagAux st l = false := by
  intro l
  induction l with
  | nil => intro _ st; rfl
  | cons c rest ih =>
    intro h st
    have hc : c ≠ '>' := fun he => h (he ▸ List.mem_cons_self c rest)
    have hr : '>' ∉ rest := fun hm => h (List.mem_cons_of_mem c hm)
    simp only [hasTagAux]
    by_cases hlt : c = '<'
    · rw [if_pos hlt]
      exact ih hr _
    · rw [if_neg hlt, if_neg hc]
      by_cases h0 : st = 0
      · rw [if_pos h0]
        exact ih hr 0
      · rw [if_neg h0]
        exact ih hr 2

theorem hasTagAux_stripTagsF :
    ∀ (fuel : Nat), ∀ (l : List Char), l.length ≤ fuel →
      hasTagAux 0 (stripTagsF fuel l) = false := by
  intro fuel
  induction fuel using Nat.strong_induction_on with
  | _ fuel ih =>
    intro l hlen
    cases l with
    | nil =>
      cases fuel with
      | zero => rfl
      | succ f => rfl
    | cons c rest =>
      cases fuel with
      | zero => simp at hlen
      | succ f =>
        have hf : f < f + 1 := Nat.lt_succ_self f
        simp only [stripTagsF]
        by_cases hc : c = '<'
        · rw [if_pos hc]
          cases hs : splitAtGt rest with
          | none =>
            dsimp only
            subst hc
            show hasTagAux 1 (stripTagsF f rest) = false
            have hng : '>' ∉ rest := splitAtGt_none hs
            have hout : '>' ∉ stripTagsF f rest :=
              fun hm => hng ((stripTagsF_sublist f rest).subset hm)
            exact hasTagAux_of_no_gt hout 1
          | some pr =>
            obtain ⟨pre, post⟩ := pr
            dsimp only
            by_cases hemp : pre.isEmpty
            · rw [if_pos hemp]
              obtain ⟨hdec, -⟩ := splitAtGt_decomp hs
              have hpre : pre = [] := List.isEmpty_iff.mp hemp
              subst hpre
              simp only [List.nil_append] at hdec
              subst hc
              subst hdec
              simp only [List.length_cons] at hlen
              cases f with
              | zero => omega
              | succ f2 =>
                have hstep : stripTagsF (f2 + 1) ('>' :: post) =
                    '>' :: stripTagsF f2 post := rfl
                rw [hstep]
                show hasTagAux 0 (stripTagsF f2 post) = false
                exact ih f2 (by omega) post (by omega)
            · rw [if_neg hemp]
              obtain ⟨hdec, -⟩ := splitAtGt_decomp hs
              subst hdec
              simp only [List.length_cons, List.length_append] at hlen
              exact ih f hf post (by omega)
        · rw [if_neg hc]
          by_cases hgt : c = '>'
          · subst hgt
            show hasTagAux 0 (stripTagsF f rest) = false
            simp only [List.length_cons] at hlen
            exact ih f hf rest (by omega)
          · simp only [hasTagAux, if_neg hc, if_neg hgt, if_pos rfl]
            simp only [List.length_cons] at hlen
            exact ih f hf rest (by omega)

theorem dedupStep_subset [DecidableEq α] :
    ∀ (v : α) (l : List α), ∀ x ∈ dedupStep v l, x ∈ l := by
  intro v l
  induction l generalizing v with
  | nil => intro x hx; simp [dedupStep] at hx
  | cons y ys ih =>
    intro x hx
    simp only [dedupStep] at hx
    split at hx
    · exact List.mem_cons_of_mem y (ih y x hx)
    · rcases List.mem_cons.mp hx with h1 | h2
      · exact h1 ▸ List.mem_cons_self y ys
      · exact List.mem_cons_of_mem y (ih y x h2)

theorem dedupAdjacent_subset [DecidableEq α] :
    ∀ (l : List α), ∀ x ∈ dedupAdjacent l, x ∈ l := by
  intro l x hx
  cases l with
  | nil => simp [dedupAdjacent] at hx
  | cons a as =>
    simp only [dedupAdjacent] at hx
    rcases List.mem_cons.mp hx with h1 | h2
    · exact h1 ▸ List.mem_cons_self a as
    · exact List.mem_cons_of_mem a (dedupStep_subset a as x h2)

theorem pySplitNl_chars :
    ∀ (l : List Char), ∀ seg ∈ pySplitNl l, ∀ c ∈ seg, c ∈ l := by
  intro l
  induction l with
  | nil =>
    intro seg hseg c hc
    simp [pySplitNl] at hseg
    subst hseg
    simp at hc
  | cons a rest ih =>
    intro seg hseg c hc
    simp only [pySplitNl] at hseg
    split at hseg
    · rcases List.mem_cons.mp hseg with h1 | h2
      · subst h1; simp at hc
      · exact List.mem_cons_of_mem a (ih seg h2 c hc)
    · cases hps : pySplitNl rest with
      | nil =>
        rw [hps] at hseg
        simp at hseg
        subst hseg
        simp at hc
        rw [hc]
        exact List.mem_cons_self a rest
      | cons s ss =>
        rw [hps] at hseg
        rcases List.mem_cons.mp hseg with h1 | h2
        · subst h1
          rcases List.mem_cons.mp hc with h3 | h4
          · exact h3 ▸ List.mem_cons_self a rest
          · exact List.mem_cons_of_mem a
              (ih s (hps ▸ List.mem_cons_self s ss) c h4)
        · exact List.mem_cons_of_mem a
            (ih seg (hps ▸ List.mem_cons_of_mem s h2) c hc)

theorem trimChars_subset : ∀ (l : List Char), ∀ c ∈ trimChars l, c ∈ l := by
  intro l c hc
  unfold trimChars at hc
  rw [List.mem_reverse] at hc
  have h1 := (List.dropWhile_sublist _).subset hc
  rw [List.mem_reverse] at h1
  exact (List.dropWhile_sublist _).subset h1

theorem htmlUnescapeF_no_amp :
    ∀ (fuel : Nat) {l : List Char}, '&' ∉ l → htmlUnescapeF fuel l = l := by
  intro fuel
  induction fuel with
  | zero => intro l _; rfl
  | succ f ih =>
    intro l h
    cases l with
    | nil => rfl
    | cons c rest =>
      have hc : c ≠ '&' := fun he => h (he ▸ List.mem_cons_self c rest)
      have hr : '&' ∉ rest := fun hm => h (List.mem_cons_of_mem c hm)
      simp only [htmlUnescapeF]
      rw [if_neg hc, ih hr]

theorem htmlUnescape_no_amp {l : List Char} (h : '&' ∉ l) : htmlUnescape l = l :=
  htmlUnescapeF_no_amp l.length h

theorem processLine_eq_some {line out : List Char} (h : processLine line = some out) :
    out = htmlUnescape (stripTags (trimChars line)) := by
  unfold processLine at h
  dsimp only at h
  split at h
  · exact absurd h (by simp)
  · simp at h
    exact h.symm

theorem chain_dedupStep [DecidableEq α] :
    ∀ (l : List α) (prev : α), List.Chain' (fun a b => a ≠ b) (prev :: dedupStep prev l) := by
  intro l
  induction l with
  | nil => intro prev; simp [dedupStep]
  | cons y ys ih =>
    intro prev
    simp only [dedupStep]
    split
    · next heq => exact heq ▸ ih y
    · next hne =>
      rw [List.chain'_cons]
      exact ⟨fun he => hne he.symm, ih y⟩

theorem chain_dedupAdjacent [DecidableEq α] (l : List α) :
    List.Chain' (fun a b => a ≠ b) (dedupAdjacent l) := by
  cases l with
  | nil => simp [dedupAdjacent]
  | cons x xs => exact chain_dedupStep xs x

theorem gt_mem_of_hasTagAux :
    ∀ (l : List Char) (st : Nat), hasTagAux st l = true → '>' ∈ l := by
  intro l
  induction l with
  | nil => intro st h; simp [hasTagAux] at h
  | cons c rest ih =>
    intro st h
    simp only [hasTagAux] at h
    by_cases hlt : c = '<'
    · rw [if_pos hlt] at h
      exact List.mem_cons_of_mem c (ih _ h)
    · rw [if_neg hlt] at h
      by_cases hgt : c = '>'
      · rw [hgt]
        exact List.mem_cons_self '>' rest
      · rw [if_neg hgt] at h
        by_cases h0 : st = 0
        · rw [if_pos h0] at h
          exact List.mem_cons_of_mem c (ih 0 h)
        · rw [if_neg h0] at h
          exact List.mem_cons_of_mem c (ih 2 h)

theorem hasTagAux_two_iff : ∀ (l : List Char), hasTagAux 2 l = true ↔ '>' ∈ l := by
  intro l
  induction l with
  | nil => simp [hasTagAux]
  | cons c rest ih =>
    by_cases hlt : c = '<'
    · subst hlt
      have hstep : hasTagAux 2 ('<' :: rest) = hasTagAux 2 rest := rfl
      rw [hstep, ih]
      simp
    · by_cases hgt : c = '>'
      · subst hgt
        have hstep : hasTagAux 2 ('>' :: rest) = true := rfl
        rw [hstep]
        simp
      · have hstep : hasTagAux 2 (c :: rest) = hasTagAux 2 rest := by
          simp only [hasTagAux, if_neg hlt, if_neg hgt]
          rfl
        rw [hstep, ih]
        constructor
        · exact fun h => List.mem_cons_of_mem c h
        · intro h
          rcases List.mem_cons.mp h with h1 | h2
          · exact absurd h1.symm hgt
          · exact h2

theorem hasTagAux_one_of_zero : ∀ (l : List Char),
    hasTagAux 0 l = true → hasTagAux 1 l = true := by
  intro l
  induction l with
  | nil => intro h; simp [hasTagAux] at h
  | cons c rest ih =>
    intro h
    by_cases hlt : c = '<'
    · subst hlt
      have h0 : hasTagAux 0 ('<' :: rest) = hasTagAux 1 rest := rfl
      have h1 : hasTagAux 1 ('<' :: rest) = hasTagAux 2 rest := rfl
      rw [h0] at h
      rw [h1, hasTagAux_two_iff]
      exact gt_mem_of_hasTagAux rest 1 h
    · by_cases hgt : c = '>'
      · subst hgt
        have h0 : hasTagAux 0 ('>' :: rest) = hasTagAux 0 rest := rfl
        have h1 : hasTagAux 1 ('>' :: rest) = hasTagAux 0 rest := rfl
        rw [h0] at h
        rw [h1]
        exact h
      · have h0 : hasTagAux 0 (c :: rest) = hasTagAux 0 rest := by
          simp only [hasTagAux, if_neg hlt, if_neg hgt]
          rfl
        have h1 : hasTagAux 1 (c :: rest) = hasTagAux 2 rest := by
          simp only [hasTagAux, if_neg hlt, if_neg hgt]
          rfl
        rw [h0] at h
        rw [h1, hasTagAux_two_iff]
        exact gt_mem_of_hasTagAux rest 0 h

theorem first_gt_split : ∀ {l : List Char}, '>' ∈ l →
    ∃ s t, l = s ++ '>' :: t ∧ '>' ∉ s := by
  intro l h
  induction l with
  | nil => simp at h
  | cons c rest ih =>
    by_cases hc : c = '>'
    · exact ⟨[], rest, by rw [hc]; rfl, by simp⟩
    · have hr : '>' ∈ rest := by
        rcases List.mem_cons.mp h with h1 | h2
        · exact absurd h1.symm hc
        · exact h2
      obtain ⟨s, t, hst, hns⟩ := ih hr
      refine ⟨c :: s, t, by rw [hst]; rfl, ?_⟩
      intro hm
      rcases List.mem_cons.mp hm with h1 | h2
      · exact hc h1.symm
      · exact hns h2

theorem containsTagSpec_cons {l : List Char} (c : Char) (h : containsTagSpec l) :
    containsTagSpec (c :: l) := by
  obtain ⟨pre, mid, post, he, hne, hng⟩ := h
  exact ⟨c :: pre, mid, post, by rw [he]; rfl, hne, hng⟩

theorem hasTagAux_sound : ∀ (l : List Char),
    (hasTagAux 0 l = true → containsTagSpec l) ∧
    (hasTagAux 1 l = true → containsTagSpec ('<' :: l)) := by
  intro l
  induction l with
  | nil =>
    constructor
    · intro h; simp [hasTagAux] at h
    · intro h; simp [hasTagAux] at h
  | cons c rest ih =>
    constructor
    · intro h
      by_cases hlt : c = '<'
      · subst hlt
        have h0 : hasTagAux 0 ('<' :: rest) = hasTagAux 1 rest := rfl
        rw [h0] at h
        exact ih.2 h
      · by_cases hgt : c = '>'
        · subst hgt
          have h0 : hasTagAux 0 ('>' :: rest) = hasTagAux 0 rest := rfl
          rw [h0] at h
          exact containsTagSpec_cons '>' (ih.1 h)
        · have h0 : hasTagAux 0 (c :: rest) = hasTagAux 0 rest := by
            simp only [hasTagAux, if_neg hlt, if_neg hgt]
            rfl
          rw [h0] at h
          exact containsTagSpec_cons c (ih.1 h)
    · intro h
      by_cases hlt : c = '<'
      · subst hlt
        have h1 : hasTagAux 1 ('<' :: rest) = hasTagAux 2 rest := rfl
        rw [h1, hasTagAux_two_iff] at h
        obtain ⟨s, t, hst, hns⟩ := first_gt_split h
        refine ⟨[], '<' :: s, t, by rw [hst]; rfl, by simp, ?_⟩
        intro hm
        rcases List.mem_cons.mp hm with h1 | h2
        · exact absurd h1 (by decide)
        · exact hns h2
      · by_cases hgt : c = '>'
        · subst hgt
          have h1 : hasTagAux 1 ('>' :: rest) = hasTagAux 0 rest := rfl
          rw [h1] at h
          exact containsTagSpec_cons '<' (containsTagSpec_cons '>' (ih.1 h))
        · have h1 : hasTagAux 1 (c :: rest) = hasTagAux 2 rest := by
            simp only [hasTagAux, if_neg hlt, if_neg hgt]
            rfl
          rw [h1, hasTagAux_two_iff] at h
          obtain ⟨s, t, hst, hns⟩ := first_gt_split h
          refine ⟨[], c :: s, t, by rw [hst]; rfl, by simp, ?_⟩
          intro hm
          rcases List.mem_cons.mp hm with h1 | h2
          · exact absurd h1.symm hgt
          · exact hns h2

theorem hasTag_complete :
    ∀ (pre mid post : List Char), mid ≠ [] → '>' ∉ mid →
      hasTagAux 0 (pre ++ '<' :: (mid ++ '>' :: post)) = true := by
  intro pre
  induction pre with
  | nil =>
    intro mid post hne hng
    cases mid with
    | nil => exact absurd rfl hne
    | cons m0 mrest =>
      have hm0 : m0 ≠ '>' := fun he => hng (he ▸ List.mem_cons_self m0 mrest)
      show hasTagAux 1 (m0 :: (mrest ++ '>' :: post)) = true
      by_cases hlt : m0 = '<'
      · subst hlt
        have h1 : hasTagAux 1 ('<' :: (mrest ++ '>' :: post)) =
            hasTagAux 2 (mrest ++ '>' :: post) := rfl
        rw [h1, hasTagAux_two_iff]
        simp
      · have h1 : hasTagAux 1 (m0 :: (mrest ++ '>' :: post)) =
            hasTagAux 2 (mrest ++ '>' :: post) := by
          simp only [hasTagAux, if_neg hlt, if_neg hm0]
          rfl
        rw [h1, hasTagAux_two_iff]
        simp
  | cons c pre' ih =>
    intro mid post hne hng
    have hrec := ih mid post hne hng
    by_cases hlt : c = '<'
    · subst hlt
      show hasTagAux 1 (pre' ++ '<' :: (mid ++ '>' :: post)) = true
      exact hasTagAux_one_of_zero _ hrec
    · by_cases hgt : c = '>'
      · subst hgt
        show hasTagAux 0 (pre' ++ '<' :: (mid ++ '>' :: post)) = true
        exact hrec
      · have h0 : hasTagAux 0 (c :: (pre' ++ '<' :: (mid ++ '>' :: post))) =
            hasTagAux 0 (pre' ++ '<' :: (mid ++ '>' :: post)) := by
          simp only [hasTagAux, if_neg hlt, if_neg hgt]
          rfl
        rw [List.cons_append, h0]
        exact hrec

theorem hasTag_iff_spec (l : List Char) :
    hasTagAux 0 l = true ↔ containsTagSpec l := by
  constructor
  · exact (hasTagAux_sound l).1
  · intro h
    obtain ⟨pre, mid, post, he, hne, hng⟩ := h
    rw [he]
    exact hasTag_complete pre mid post hne hng

/-- C7 counterexample: the input consisting of the single line `&lt;i&gt;`
is converted to the line `<i>`, which contains an inline markup tag
(a match of the tag regex the source strips, both by the decision procedure
and by the declarative reading): tag stripping happens before entity
decoding, so entity-encoded markup survives into the output. -/
theorem convert_vtt_to_txt_entity_tag_counterexample :
    convert_vtt_to_txt "&lt;i&gt;" = "<i>" ∧
    vttLines "&lt;i&gt;" = [['<', 'i', '>']] ∧
    hasTag "<i>" = true ∧
    containsTagSpec ['<', 'i', '>'] :=
  ⟨by decide, by decide, by decide,
   ⟨[], ['i'], [], rfl, by simp, by decide⟩⟩

/-- C7 (amended): for every input string, convert_vtt_to_txt emits no two
consecutive identical lines and returns the empty string on empty input,
with no exception path; but an emitted line can contain an inline markup
tag when the input encoded angle brackets as HTML entities, because tags
are stripped before entities are decoded — the no-tag guarantee (stated
declaratively: no emitted line contains a match of `<[^>]+>`) does hold
for every input containing no '&' character. -/
theorem convert_vtt_to_txt_spec :
    (∀ s : String, List.Chain' (fun a b => a ≠ b) (vttLines s)) ∧
    convert_vtt_to_txt "" = "" ∧
    (∀ s : String, (∀ c ∈ s.data, c ≠ '&') →
      ∀ line ∈ vttLines s, ¬ containsTagSpec line) := by
  refine ⟨fun s => chain_dedupAdjacent _, rfl, ?_⟩
  intro s hs line hline
  have hline' := dedupAdjacent_subset _ line hline
  obtain ⟨seg, hseg, hpl⟩ := List.mem_filterMap.mp hline'
  have hout := processLine_eq_some hpl
  have hsub : ∀ c ∈ trimChars seg, c ∈ s.data := by
    intro c hc
    exact trimChars_subset _ c
      (pySplitNl_chars _ seg hseg c (trimChars_subset _ c hc))
  have hamp : '&' ∉ stripTags (trimChars seg) := by
    intro hm
    have h1 : '&' ∈ trimChars seg :=
      (stripTagsF_sublist _ _).subset hm
    exact hs '&' (hsub '&' h1) rfl
  rw [hout, htmlUnescape_no_amp hamp]
  intro hspec
  have htrue := (hasTag_iff_spec (stripTags (trimChars seg))).mpr hspec
  have hfalse : hasTagAux 0 (stripTags (trimChars seg)) = false :=
    hasTagAux_stripTagsF (trimChars seg).length (trimChars seg) (Nat.le_refl _)
  rw [htrue] at hfalse
  exact absurd hfalse (by simp)

theorem convert_vtt_to_txt_spec_witness :
    List.Chain' (fun a b => a ≠ b) (vttLines "a\na\nb") ∧
    ¬ containsTagSpec ['h', 'i'] :=
  ⟨convert_vtt_to_txt_spec.1 "a\na\nb",
   convert_vtt_to_txt_spec.2.2 "hi" (by decide) ['h', 'i'] (by decide)⟩

theorem tsHere?_eq {l m rest : List Char} (h : tsHere? l = some (m, rest)) :
    m = l.take 12 ∧ rest = l.drop 12 ∧ isDotTsChunk m = true := by
  unfold tsHere? at h
  split at h
  · next hd =>
    simp at h
    exact ⟨h.1.symm, h.2.symm, h.1 ▸ hd⟩
  · simp at h

theorem isDotTsChunk_length {m : List Char} (h : isDotTsChunk m = true) :
    m.length = 12 := by
  unfold isDotTsChunk at h
  split at h
  · simp_all
  · simp at h

theorem isDotTsChunk_dot_mem {m : List Char} (h : isDotTsChunk m = true) :
    '.' ∈ m := by
  unfold isDotTsChunk at h
  split at h
  · rename_i a b c2 d e f g h2 i j k n
    simp only [Bool.and_eq_true, beq_iff_eq] at h
    obtain ⟨⟨⟨⟨⟨⟨⟨⟨⟨⟨⟨-, -⟩, -⟩, -⟩, -⟩, -⟩, -⟩, -⟩, hi⟩, -⟩, -⟩, -⟩ := h
    subst hi
    simp
  · simp at h

theorem tsChunksF_join :
    ∀ (fuel : Nat) (l : List Char), l.length ≤ fuel →
      (tsChunksF fuel l).flatMap (fun p => p.2) = l := by
  intro fuel
  induction fuel with
  | zero =>
    intro l h
    have hnil : l = [] := List.eq_nil_of_length_eq_zero (Nat.le_zero.mp h)
    subst hnil
    rfl
  | succ f ih =>
    intro l hl
    cases l with
    | nil => rfl
    | cons c rest =>
      simp only [tsChunksF]
      cases ht : tsHere? (c :: rest) with
      | some pr =>
        obtain ⟨m, rest'⟩ := pr
        dsimp only
        obtain ⟨hm, hr, hd⟩ := tsHere?_eq ht
        have hrl : rest'.length ≤ f := by
          rw [hr]
          simp only [List.length_drop, List.length_cons]
          simp only [List.length_cons] at hl
          omega
        show m ++ (tsChunksF f rest').flatMap (fun p => p.2) = c :: rest
        rw [ih rest' hrl, hm, hr]
        exact List.take_append_drop 12 (c :: rest)
      | none =>
        dsimp only
        simp only [List.length_cons] at hl
        show c :: (tsChunksF f rest).flatMap (fun p => p.2) = c :: rest
        rw [ih rest (by omega)]

theorem tsChunksF_true_isDotTs :
    ∀ (fuel : Nat) (l : List Char) (p : Bool × List Char),
      p ∈ tsChunksF fuel l → p.1 = true → isDotTsChunk p.2 = true := by
  intro fuel
  induction fuel with
  | zero => intro l p hp; simp [tsChunksF] at hp
  | succ f ih =>
    intro l p hp htrue
    cases l with
    | nil => simp [tsChunksF] at hp
    | cons c rest =>
      simp only [tsChunksF] at hp
      cases ht : tsHere? (c :: rest) with
      | some pr =>
        obtain ⟨m, rest'⟩ := pr
        rw [ht] at hp
        dsimp only at hp
        rcases List.mem_cons.mp hp with h1 | h2
        · obtain ⟨-, -, hd⟩ := tsHere?_eq ht
          rw [h1]
          exact hd
        · exact ih rest' p h2 htrue
      | none =>
        rw [ht] at hp
        dsimp only at hp
        rcases List.mem_cons.mp hp with h1 | h2
        · rw [h1] at htrue
          simp at htrue
        · exact ih rest p h2 htrue

theorem tsChunksF_false_single :
    ∀ (fuel : Nat) (l : List Char) (p : Bool × List Char),
      p ∈ tsChunksF fuel l → p.1 = false → ∃ c, p.2 = [c] := by
  intro fuel
  induction fuel with
  | zero => intro l p hp; simp [tsChunksF] at hp
  | succ f ih =>
    intro l p hp hfalse
    cases l with
    | nil => simp [tsChunksF] at hp
    | cons c rest =>
      simp only [tsChunksF] at hp
      cases ht : tsHere? (c :: rest) with
      | some pr =>
        obtain ⟨m, rest'⟩ := pr
        rw [ht] at hp
        dsimp only at hp
        rcases List.mem_cons.mp hp with h1 | h2
        · rw [h1] at hfalse
          simp at hfalse
        · exact ih rest' p h2 hfalse
      | none =>
        rw [ht] at hp
        dsimp only at hp
        rcases List.mem_cons.mp hp with h1 | h2
        · exact ⟨c, by rw [h1]⟩
        · exact ih rest p h2 hfalse

theorem tsHere?_none_no_dot {l : List Char} (h : '.' ∉ l) : tsHere? l = none := by
  have hnd : isDotTsChunk (l.take 12) ≠ true :=
    fun hd => h (List.take_subset 12 l (isDotTsChunk_dot_mem hd))
  simp [tsHere?, hnd]

theorem tsChunksF_no_dot :
    ∀ (fuel : Nat) (l : List Char), l.length ≤ fuel → '.' ∉ l →
      (tsChunksF fuel l).flatMap (fun p => if p.1 then tsToComma p.2 else p.2) = l := by
  intro fuel
  induction fuel with
  | zero =>
    intro l h _
    have hnil : l = [] := List.eq_nil_of_length_eq_zero (Nat.le_zero.mp h)
    subst hnil
    rfl
  | succ f ih =>
    intro l hl hd
    cases l with
    | nil => rfl
    | cons c rest =>
      have hrd : '.' ∉ rest := fun hm => hd (List.mem_cons_of_mem c hm)
      simp only [tsChunksF, tsHere?_none_no_dot hd]
      simp only [List.length_cons] at hl
      show c :: (tsChunksF f rest).flatMap (fun p => if p.1 then tsToComma p.2 else p.2) = c :: rest
      rw [ih rest (by omega) hrd]

theorem tsToComma_of_isDotTs {m : List Char} (h : isDotTsChunk m = true) :
    ∃ pre post, m = pre ++ '.' :: post ∧ tsToComma m = pre ++ ',' :: post ∧
      pre.length = 8 ∧ (∀ c ∈ pre, c.isDigit = true ∨ c = ':') ∧
      ∀ c ∈ post, c.isDigit = true := by
  unfold isDotTsChunk at h
  split at h
  · rename_i a b c2 d e f g h2 i j k n
    simp only [Bool.and_eq_true, beq_iff_eq] at h
    obtain ⟨⟨⟨⟨⟨⟨⟨⟨⟨⟨⟨ha, hb⟩, hc2⟩, hd2⟩, he⟩, hf⟩, hg⟩, hh2⟩, hi⟩, hj⟩, hk⟩, hn⟩ := h
    subst hi
    refine ⟨[a, b, c2, d, e, f, g, h2], [j, k, n], rfl, rfl, rfl, ?_, ?_⟩
    · intro x hx
      simp only [List.mem_cons, List.not_mem_nil, or_false] at hx
      rcases hx with rfl | rfl | rfl | rfl | rfl | rfl | rfl | rfl
      · exact Or.inl ha
      · exact Or.inl hb
      · exact Or.inr hc2
      · exact Or.inl hd2
      · exact Or.inl he
      · exact Or.inr hf
      · exact Or.inl hg
      · exact Or.inl hh2
    · intro x hx
      simp only [List.mem_cons, List.not_mem_nil, or_false] at hx
      rcases hx with rfl | rfl | rfl
      · exact hj
      · exact hk
      · exact hn
  · simp at h

/-- C8 counterexample: on the input `00:00:00.000:00:00.000`, which contains
two overlapping occurrences of the timestamp pattern (at offsets 0 and 10),
the source rewrites only the leftmost one; the output still contains an
occurrence of the dot-form pattern, so the claim that every occurrence is
rewritten is false. -/
theorem convert_vtt_to_srt_overlap_counterexample :
    convert_vtt_to_srt "00:00:00.000:00:00.000" = "00:00:00,000:00:00.000" ∧
    hasDotTs ("00:00:00,000:00:00.000").data = true := ⟨by decide, by decide⟩

/-- C8 (amended): convert_vtt_to_srt rewrites the leftmost non-overlapping
occurrences of `HH:MM:SS.mmm`, scanning left to right: the text decomposes
into single characters copied unchanged (so every period outside a replaced
match is untouched) and 12-character timestamp matches whose millisecond
dot alone becomes a comma; an occurrence overlapping an earlier replaced
match is skipped. Text containing no period at all — in particular
already-converted comma timestamps — is left unchanged by the rewriting
pass. -/
theorem convert_vtt_to_srt_spec :
    (∀ s : String, convert_vtt_to_srt s =
      if s = "" then "" else String.mk (convertTimestamps (srtPre s))) ∧
    (∀ l : List Char, (tsChunks l).flatMap (fun p => p.2) = l) ∧
    (∀ l : List Char, ∀ p ∈ tsChunks l, p.1 = true → isDotTsChunk p.2 = true) ∧
    (∀ l : List Char, ∀ p ∈ tsChunks l, p.1 = false → ∃ c, p.2 = [c]) ∧
    (∀ m : List Char, isDotTsChunk m = true →
      ∃ pre post, m = pre ++ '.' :: post ∧ tsToComma m = pre ++ ',' :: post ∧
        pre.length = 8 ∧ (∀ c ∈ pre, c.isDigit = true ∨ c = ':') ∧
        ∀ c ∈ post, c.isDigit = true) ∧
    (∀ l : List Char, '.' ∉ l → convertTimestamps l = l) := by
  refine ⟨fun s => rfl, ?_, ?_, ?_, ?_, ?_⟩
  · intro l
    exact tsChunksF_join l.length l (Nat.le_refl _)
  · intro l p hp htrue
    exact tsChunksF_true_isDotTs l.length l p hp htrue
  · intro l p hp hfalse
    exact tsChunksF_false_single l.length l p hp hfalse
  · intro m hm
    exact tsToComma_of_isDotTs hm
  · intro l hl
    exact tsChunksF_no_dot l.length l (Nat.le_refl _) hl

theorem convert_vtt_to_srt_spec_witness :
    (tsChunks "ab:cd".data).flatMap (fun p => p.2) = "ab:cd".data ∧
    convertTimestamps "01:02:03,004".data = "01:02:03,004".data :=
  ⟨convert_vtt_to_srt_spec.2.1 "ab:cd".data,
   convert_vtt_to_srt_spec.2.2.2.2.2 "01:02:03,004".data (by decide)⟩

theorem classifyStep_ok_invariant {mrl mrpl : Int}
    {st st' : List CommentNode × List ReplyNode} {e : RawEntry}
    (h : classifyStep mrl mrpl st e = .ok st')
    (hroots : ∀ r ∈ st.1, mrl ≤ r.like_count ∧ r.replies = [])
    (hreps : ∀ p ∈ st.2, mrpl ≤ p.like_count) :
    (∀ r ∈ st'.1, mrl ≤ r.like_count ∧ r.replies = []) ∧
    (∀ p ∈ st'.2, mrpl ≤ p.like_count) := by
  cases e with
  | nonDict =>
    simp only [classifyStep] at h
    cases h
    exact ⟨hroots, hreps⟩
  | dictE c =>
    simp only [classifyStep] at h
    split at h
    · cases hp : pyToInt (c.like_count.getD (.vInt 0)) with
      | error err => rw [hp] at h; simp at h
      | ok lc =>
        rw [hp] at h
        dsimp only at h
        split at h
        · next hge =>
          cases h
          refine ⟨?_, hreps⟩
          intro r hr
          rcases List.mem_append.mp hr with h1 | h2
          · exact hroots r h1
          · simp at h2
            subst h2
            exact ⟨hge, rfl⟩
        · cases h
          exact ⟨hroots, hreps⟩
    · cases hp : pyToInt (c.like_count.getD (.vInt 0)) with
      | error err => rw [hp] at h; simp at h
      | ok lc =>
        rw [hp] at h
        dsimp only at h
        split at h
        · next hge =>
          cases h
          refine ⟨hroots, ?_⟩
          intro p hp2
          rcases List.mem_append.mp hp2 with h1 | h2
          · exact hreps p h1
          · simp at h2
            subst h2
            exact hge
        · cases h
          exact ⟨hroots, hreps⟩

theorem classifyComments_ok_invariant {mrl mrpl : Int} :
    ∀ (raw : List RawEntry) (st st' : List CommentNode × List ReplyNode),
      classifyComments mrl mrpl raw st = .ok st' →
      (∀ r ∈ st.1, mrl ≤ r.like_count ∧ r.replies = []) →
      (∀ p ∈ st.2, mrpl ≤ p.like_count) →
      (∀ r ∈ st'.1, mrl ≤ r.like_count ∧ r.replies = []) ∧
      (∀ p ∈ st'.2, mrpl ≤ p.like_count) := by
  intro raw
  induction raw with
  | nil =>
    intro st st' h hr hp
    simp only [classifyComments] at h
    cases h
    exact ⟨hr, hp⟩
  | cons e rest ih =>
    intro st st' h hr hp
    simp only [classifyComments] at h
    cases hs : classifyStep mrl mrpl st e with
    | error err => rw [hs] at h; simp at h
    | ok st1 =>
      rw [hs] at h
      dsimp only at h
      obtain ⟨h1, h2⟩ := classifyStep_ok_invariant hs hr hp
      exact ih st1 st' h h1 h2

theorem attachReplies_like (reps : List ReplyNode) (r : CommentNode) :
    (attachReplies reps r).like_count = r.like_count := by
  unfold attachReplies
  split <;> rfl

theorem attachReplies_cid (reps : List ReplyNode) (r : CommentNode) :
    (attachReplies reps r).cid = r.cid := by
  unfold attachReplies
  split <;> rfl

theorem attachReplies_mem (reps : List ReplyNode) (r : CommentNode)
    (hr : r.replies = []) :
    ∀ rep ∈ (attachReplies reps r).replies,
      rep ∈ reps ∧ pyEq rep.parent_cid r.cid = true := by
  intro rep hrep
  unfold attachReplies at hrep
  split at hrep
  · dsimp only at hrep
    have := List.mem_filter.mp hrep
    exact ⟨this.1, this.2⟩
  · rw [hr] at hrep
    simp at hrep

theorem pySliceTo_eq_take (l : List α) (k : Int) :
    ∃ n, pySliceTo l k = l.take n := by
  unfold pySliceTo
  split
  · exact ⟨k.toNat, rfl⟩
  · exact ⟨l.length - (-k).toNat, rfl⟩

theorem sortRoots_perm (s : String) (roots : List CommentNode) :
    (sortRoots s roots).Perm roots := by
  unfold sortRoots
  split
  · exact List.mergeSort_perm roots rootLe
  · exact List.Perm.refl roots

theorem rootLe_trans : ∀ (a b c : CommentNode),
    rootLe a b = true → rootLe b c = true → rootLe a c = true := by
  intro a b c hab hbc
  simp only [rootLe, decide_eq_true_eq] at hab hbc ⊢
  omega

theorem rootLe_total : ∀ (a b : CommentNode),
    (rootLe a b || rootLe b a) = true := by
  intro a b
  simp only [rootLe, Bool.or_eq_true, decide_eq_true_eq]
  omega

theorem pairwise_of_forall_mem {α : Type} {R : α → α → Prop} :
    ∀ (l : List α), (∀ a ∈ l, ∀ b ∈ l, R a b) → l.Pairwise R := by
  intro l
  induction l with
  | nil => intro _; exact List.Pairwise.nil
  | cons x xs ih =>
    intro h
    refine List.Pairwise.cons ?_ (ih ?_)
    · intro b hb
      exact h x (List.mem_cons_self _ _) b (List.mem_cons_of_mem _ hb)
    · intro a ha b hb
      exact h a (List.mem_cons_of_mem _ ha) b (List.mem_cons_of_mem _ hb)

/-- C1: for every raw comment list, every requested count K, every sort mode
and both thresholds, a successful run of the comment tree builder returns at
most K root nodes; every returned root has like_count at least min_likes;
and every reply attached to a returned root has like_count at least
min_reply_likes and a parent reference equal (under Python equality) to that
root's cid, so no orphan reply is retained. -/
theorem fetch_comments_root_reply_bounds
    (raw : List RawEntry) (K : Nat) (sort_by : String) (mrl mrpl : Int)
    (l : List CommentNode)
    (h : fetch_comments raw (K : Int) sort_by mrl mrpl = .ok l) :
    l.length ≤ K ∧
    ∀ root ∈ l, mrl ≤ root.like_count ∧
      ∀ rep ∈ root.replies, mrpl ≤ rep.like_count ∧
        pyEq rep.parent_cid root.cid = true := by
  unfold fetch_comments at h
  cases hc : classifyComments mrl mrpl raw ([], []) with
  | error err => rw [hc] at h; simp at h
  | ok st =>
    obtain ⟨roots, reps⟩ := st
    rw [hc] at h
    dsimp only at h
    injection h with h
    subst h
    obtain ⟨hinv, hrepinv⟩ :=
      classifyComments_ok_invariant raw ([], []) (roots, reps) hc
        (by simp) (by simp)
    constructor
    · rw [List.length_map]
      unfold pySliceTo
      rw [if_pos (Int.natCast_nonneg K)]
      calc ((sortRoots sort_by roots).take ((K : Int)).toNat).length
          ≤ ((K : Int)).toNat := List.length_take_le _ _
        _ = K := Int.toNat_natCast K
    · intro root hroot
      obtain ⟨r0, hr0mem, hr0eq⟩ := List.mem_map.mp hroot
      obtain ⟨n, hslice⟩ := pySliceTo_eq_take (sortRoots sort_by roots) (K : Int)
      rw [hslice] at hr0mem
      have h2 : r0 ∈ roots :=
        (sortRoots_perm sort_by roots).mem_iff.mp (List.take_subset n _ hr0mem)
      obtain ⟨hlike, hrepnil⟩ := hinv r0 h2
      subst hr0eq
      refine ⟨by rw [attachReplies_like]; exact hlike, ?_⟩
      intro rep hrep
      obtain ⟨hmem, hpeq⟩ := attachReplies_mem reps r0 hrepnil rep hrep
      exact ⟨hrepinv rep hmem, by rw [attachReplies_cid]; exact hpeq⟩

theorem fetch_comments_root_reply_bounds_witness :
    ([⟨PyVal.vStr "a", PyVal.vStr "Unknown", PyVal.vStr "", 3, []⟩] :
        List CommentNode).length ≤ 1 ∧
    ∀ root ∈ ([⟨PyVal.vStr "a", PyVal.vStr "Unknown", PyVal.vStr "", 3, []⟩] :
        List CommentNode),
      (1 : Int) ≤ root.like_count ∧
      ∀ rep ∈ root.replies, (0 : Int) ≤ rep.like_count ∧
        pyEq rep.parent_cid root.cid = true :=
  fetch_comments_root_reply_bounds
    [.dictE { id := some (.vStr "a"), like_count := some (.vInt 3) }]
    1 "new" 1 0 _ rfl

/-- C4 counterexample: a record whose like count field is present but not
numeric (None here) makes the builder raise — `int(None)` is a TypeError
that the classification loop does not catch — so the claim that a
non-numeric like count is coerced to 0 without raising is false. -/
theorem fetch_comments_nonnumeric_like_counterexample :
    fetch_comments
      [.dictE { id := some (.vStr "a"), like_count := some .vNone }]
      5 "new" 0 0 = .error () := rfl

theorem classifyComments_missing_likes {mrl mrpl : Int} :
    ∀ (raw : List RawEntry) (st : List CommentNode × List ReplyNode),
      (∀ c, RawEntry.dictE c ∈ raw → c.like_count = none) →
      (∀ r ∈ st.1, r.like_count = 0 ∧ r.replies = []) →
      (∀ p ∈ st.2, p.like_count = 0) →
      ∃ st', classifyComments mrl mrpl raw st = .ok st' ∧
        (∀ r ∈ st'.1, r.like_count = 0 ∧ r.replies = []) ∧
        (∀ p ∈ st'.2, p.like_count = 0) := by
  intro raw
  induction raw with
  | nil =>
    intro st _ hr hp
    exact ⟨st, rfl, hr, hp⟩
  | cons e rest ih =>
    intro st hmiss hr hp
    have hrest : ∀ c, RawEntry.dictE c ∈ rest → c.like_count = none :=
      fun c hc => hmiss c (List.mem_cons_of_mem _ hc)
    cases e with
    | nonDict =>
      obtain ⟨st', h1, h2, h3⟩ := ih st hrest hr hp
      exact ⟨st', by simp only [classifyComments, classifyStep]; exact h1, h2, h3⟩
    | dictE c =>
      have hlc : c.like_count = none := hmiss c (List.mem_cons_self _ _)
      have hint : pyToInt (c.like_count.getD (.vInt 0)) = .ok 0 := by
        rw [hlc]; rfl
      have hstep : ∃ st1, classifyStep mrl mrpl st (.dictE c) = .ok st1 ∧
          (∀ r ∈ st1.1, r.like_count = 0 ∧ r.replies = []) ∧
          (∀ p ∈ st1.2, p.like_count = 0) := by
        simp only [classifyStep, hint]
        by_cases hcond : (!pyTruthy (c.parent.getD PyVal.vNone) ||
            pyEq (c.parent.getD PyVal.vNone) (PyVal.vStr "root")) = true
        · rw [if_pos hcond]
          by_cases hge : mrl ≤ 0
          · rw [if_pos hge]
            refine ⟨(st.1 ++ [mk_root c 0], st.2), rfl, ?_, hp⟩
            intro r hr2
            rcases List.mem_append.mp hr2 with h1 | h2
            · exact hr r h1
            · simp at h2
              subst h2
              exact ⟨rfl, rfl⟩
          · rw [if_neg hge]
            exact ⟨st, rfl, hr, hp⟩
        · rw [if_neg hcond]
          by_cases hge : mrpl ≤ 0
          · rw [if_pos hge]
            refine ⟨(st.1, st.2 ++ [mk_reply c (c.parent.getD .vNone) 0]), rfl, hr, ?_⟩
            intro p hp2
            rcases List.mem_append.mp hp2 with h1 | h2
            · exact hp p h1
            · simp at h2
              subst h2
              rfl
          · rw [if_neg hge]
            exact ⟨st, rfl, hr, hp⟩
      obtain ⟨st1, hs1, hr1, hp1⟩ := hstep
      obtain ⟨st', h1, h2, h3⟩ := ih st1 hrest hr1 hp1
      refine ⟨st', ?_, h2, h3⟩
      simp only [classifyComments, hs1]
      exact h1

/-- C4 (amended): a record whose like count is absent is coerced to 0 and
never raises — the builder succeeds and every produced node carries like
count 0 — but a like count that is present and non-numeric is passed to
`int()` unguarded and raises, propagating out of the builder. -/
theorem fetch_comments_missing_likes_default
    (raw : List RawEntry) (k : Int) (s : String) (mrl mrpl : Int)
    (h : ∀ c, RawEntry.dictE c ∈ raw → c.like_count = none) :
    ∃ l, fetch_comments raw k s mrl mrpl = .ok l ∧
      ∀ root ∈ l, root.like_count = 0 ∧
        ∀ rep ∈ root.replies, rep.like_count = 0 := by
  obtain ⟨⟨roots, reps⟩, hc, hr, hp⟩ :=
    classifyComments_missing_likes raw ([], []) h (by simp) (by simp)
  refine ⟨(pySliceTo (sortRoots s roots) k).map (attachReplies reps), ?_, ?_⟩
  · unfold fetch_comments
    rw [hc]
  · intro root hroot
    obtain ⟨r0, hr0mem, hr0eq⟩ := List.mem_map.mp hroot
    obtain ⟨n, hslice⟩ := pySliceTo_eq_take (sortRoots s roots) k
    rw [hslice] at hr0mem
    have h2 : r0 ∈ roots :=
      (sortRoots_perm s roots).mem_iff.mp (List.take_subset n _ hr0mem)
    obtain ⟨hlike, hnil⟩ := hr r0 h2
    subst hr0eq
    refine ⟨by rw [attachReplies_like]; exact hlike, ?_⟩
    intro rep hrep
    obtain ⟨hmem, -⟩ := attachReplies_mem reps r0 hnil rep hrep
    exact hp rep hmem

theorem fetch_comments_missing_likes_default_witness :
    ∃ l, fetch_comments [.dictE { id := some (.vStr "a") }] 1 "new" 0 0 = .ok l ∧
      ∀ root ∈ l, root.like_count = 0 ∧
        ∀ rep ∈ root.replies, rep.like_count = 0 :=
  fetch_comments_missing_likes_default
    [.dictE { id := some (.vStr "a") }] 1 "new" 0 0
    (by
      intro c hc
      simp at hc
      rw [hc])

/-- C5 counterexample: with two qualifying roots and top_k = -1, the Python
slice `potential_roots[:-1]` keeps everything but the last root, so the
builder returns one root rather than the empty list the claim requires for
top_k ≤ 0. -/
theorem fetch_comments_negative_topk_counterexample :
    fetch_comments
      [.dictE { id := some (.vStr "a"), like_count := some (.vInt 5) },
       .dictE { id := some (.vStr "b"), like_count := some (.vInt 7) }]
      (-1) "new" 0 0 =
      .ok [⟨PyVal.vStr "a", PyVal.vStr "Unknown", PyVal.vStr "", 5, []⟩] ∧
    ([⟨PyVal.vStr "a", PyVal.vStr "Unknown", PyVal.vStr "", 5, []⟩] :
      List CommentNode) ≠ [] := ⟨rfl, by simp⟩

/-- C5 (amended): top_k = 0 yields an empty list, and an empty (or absent)
raw comment list yields an empty list for every top_k; but a negative top_k
does not yield an empty list: by Python slice semantics it returns all but
the last |top_k| of the sorted qualifying roots. -/
theorem fetch_comments_topk_edge
    (raw : List RawEntry) (k : Int) (s : String) (mrl mrpl : Int) :
    (∀ l, fetch_comments raw 0 s mrl mrpl = .ok l → l = []) ∧
    fetch_comments [] k s mrl mrpl = .ok [] ∧
    (k < 0 → ∀ roots reps,
      classifyComments mrl mrpl raw ([], []) = .ok (roots, reps) →
      fetch_comments raw k s mrl mrpl =
        .ok (((sortRoots s roots).take (roots.length - (-k).toNat)).map
          (attachReplies reps))) := by
  refine ⟨?_, ?_, ?_⟩
  · intro l h
    unfold fetch_comments at h
    cases hc : classifyComments mrl mrpl raw ([], []) with
    | error err => rw [hc] at h; simp at h
    | ok st =>
      obtain ⟨roots, reps⟩ := st
      rw [hc] at h
      dsimp only at h
      injection h with h
      have hsl : pySliceTo (sortRoots s roots) (0 : Int) = [] := by
        unfold pySliceTo
        simp
      rw [hsl] at h
      exact h.symm
  · unfold fetch_comments
    dsimp only [classifyComments]
    have h1 : sortRoots s [] = [] := (sortRoots_perm s []).eq_nil
    rw [h1]
    have h2 : pySliceTo ([] : List CommentNode) k = [] := by
      unfold pySliceTo
      split <;> simp
    rw [h2]
    rfl
  · intro hk roots reps hc
    unfold fetch_comments
    rw [hc]
    dsimp only
    have h3 : pySliceTo (sortRoots s roots) k =
        (sortRoots s roots).take ((sortRoots s roots).length - (-k).toNat) := by
      unfold pySliceTo
      rw [if_neg (by omega)]
    rw [h3, (sortRoots_perm s roots).length_eq]

theorem fetch_comments_topk_edge_witness :
    fetch_comments
      [.dictE { id := some (.vStr "a"), like_count := some (.vInt 5) },
       .dictE { id := some (.vStr "b"), like_count := some (.vInt 7) }]
      (-1) "new" 0 0 =
      .ok [⟨PyVal.vStr "a", PyVal.vStr "Unknown", PyVal.vStr "", 5, []⟩] :=
  (fetch_comments_topk_edge
      [.dictE { id := some (.vStr "a"), like_count := some (.vInt 5) },
       .dictE { id := some (.vStr "b"), like_count := some (.vInt 7) }]
      (-1) "new" 0 0).2.2 (by decide)
    [⟨PyVal.vStr "a", PyVal.vStr "Unknown", PyVal.vStr "", 5, []⟩,
     ⟨PyVal.vStr "b", PyVal.vStr "Unknown", PyVal.vStr "", 7, []⟩]
    [] rfl

/-- C6: with sort_by = 'top' (the most-liked mode), the returned root list
is ordered non-increasing by like_count and the sort is stable — within any
tie class of equal like counts, the candidate roots keep their
provider-supplied order; with sort_by = 'new' (the most-recent mode), the
provider-supplied order of the qualifying roots is preserved unchanged
before truncation. -/
theorem fetch_comments_sort_modes
    (raw : List RawEntry) (k mrl mrpl : Int)
    (roots : List CommentNode) (reps : List ReplyNode)
    (hc : classifyComments mrl mrpl raw ([], []) = .ok (roots, reps)) :
    (∀ l, fetch_comments raw k "top" mrl mrpl = .ok l →
      l.Pairwise (fun a b => b.like_count ≤ a.like_count)) ∧
    (∀ n : Int, (sortRoots "top" roots).filter (fun r => r.like_count = n) =
      roots.filter (fun r => r.like_count = n)) ∧
    fetch_comments raw k "new" mrl mrpl =
      .ok ((pySliceTo roots k).map (attachReplies reps)) := by
  refine ⟨?_, ?_, ?_⟩
  · intro l h
    unfold fetch_comments at h
    rw [hc] at h
    dsimp only at h
    injection h with h
    subst h
    have hsorted : (sortRoots "top" roots).Pairwise
        (fun a b => rootLe a b = true) := by
      unfold sortRoots
      rw [if_pos rfl]
      exact List.sorted_mergeSort rootLe_trans rootLe_total roots
    obtain ⟨n, hslice⟩ := pySliceTo_eq_take (sortRoots "top" roots) k
    rw [hslice]
    have htake : ((sortRoots "top" roots).take n).Pairwise
        (fun a b => rootLe a b = true) :=
      hsorted.sublist (List.take_sublist n _)
    rw [List.pairwise_map]
    apply htake.imp
    intro a b hab
    simp only [rootLe, decide_eq_true_eq] at hab
    rw [attachReplies_like, attachReplies_like]
    exact hab
  · intro n
    have hsub : (roots.filter (fun r => r.like_count = n)).Sublist roots :=
      List.filter_sublist roots
    have hpair : (roots.filter (fun r => r.like_count = n)).Pairwise
        (fun a b => rootLe a b = true) := by
      apply pairwise_of_forall_mem
      intro a ha b hb
      have ha' := (List.mem_filter.mp ha).2
      have hb' := (List.mem_filter.mp hb).2
      simp only [decide_eq_true_eq] at ha' hb'
      simp [rootLe, ha', hb']
    have hstable := List.sublist_mergeSort rootLe_trans rootLe_total hpair hsub
    have hself : (roots.filter (fun r => r.like_count = n)).filter
        (fun r => r.like_count = n) = roots.filter (fun r => r.like_count = n) :=
      List.filter_eq_self.mpr (fun a ha => (List.mem_filter.mp ha).2)
    have hsub2 : (roots.filter (fun r => r.like_count = n)).Sublist
        ((roots.mergeSort rootLe).filter (fun r => r.like_count = n)) := by
      have h1 := hstable.filter (fun r => decide (r.like_count = n))
      rw [hself] at h1
      exact h1
    have hlen : (roots.filter (fun r => r.like_count = n)).length =
        ((roots.mergeSort rootLe).filter (fun r => r.like_count = n)).length :=
      (((List.mergeSort_perm roots rootLe).filter
        (fun r => decide (r.like_count = n))).length_eq).symm
    unfold sortRoots
    rw [if_pos rfl]
    exact (hsub2.eq_of_length hlen).symm
  · unfold fetch_comments
    rw [hc]
    dsimp only
    have hnew : sortRoots "new" roots = roots := by
      unfold sortRoots
      rw [if_neg (by decide)]
    rw [hnew]

theorem fetch_comments_sort_modes_witness :
    fetch_comments
      [.dictE { id := some (.vStr "a"), like_count := some (.vInt 1) },
       .dictE { id := some (.vStr "b"), like_count := some (.vInt 2) }]
      5 "new" 0 0 =
      .ok ((pySliceTo
        [⟨PyVal.vStr "a", PyVal.vStr "Unknown", PyVal.vStr "", 1, []⟩,
         ⟨PyVal.vStr "b", PyVal.vStr "Unknown", PyVal.vStr "", 2, []⟩] 5).map
        (attachReplies [])) :=
  (fetch_comments_sort_modes
      [.dictE { id := some (.vStr "a"), like_count := some (.vInt 1) },
       .dictE { id := some (.vStr "b"), like_count := some (.vInt 2) }]
      5 0 0
      [⟨PyVal.vStr "a", PyVal.vStr "Unknown", PyVal.vStr "", 1, []⟩,
       ⟨PyVal.vStr "b", PyVal.vStr "Unknown", PyVal.vStr "", 2, []⟩]
      [] rfl).2.2

theorem dictInsert_keys {α : Type} (k : String) (v : α) :
    ∀ (d : List (String × α)) (x : String),
      x ∈ (dictInsert k v d).map Prod.fst ↔ x ∈ d.map Prod.fst ∨ x = k := by
  intro d
  induction d with
  | nil => intro x; simp [dictInsert]
  | cons p rest ih =>
    intro x
    by_cases hpk : p.1 = k
    · simp only [dictInsert, if_pos hpk, List.map_cons, List.mem_cons]
      rw [hpk]
      tauto
    · simp only [dictInsert, if_neg hpk, List.map_cons, List.mem_cons]
      rw [ih]
      tauto

theorem dictContains_iff {α : Type} (d : List (String × α)) (k : String) :
    dictContains d k = true ↔ k ∈ d.map Prod.fst := by
  simp only [dictContains, List.any_eq_true, beq_iff_eq, List.mem_map]

theorem manual_fold_keys :
    ∀ (ms : List (String × List SubFormat)) (d : List (String × SubEntry))
      (x : String),
      x ∈ ((ms.foldl addManualStep d).map Prod.fst) ↔
        x ∈ d.map Prod.fst ∨ x ∈ ms.map Prod.fst := by
  intro ms
  induction ms with
  | nil => intro d x; simp
  | cons p rest ih =>
    intro d x
    simp only [List.foldl_cons, List.map_cons, List.mem_cons]
    rw [ih]
    unfold addManualStep
    rw [dictInsert_keys]
    tauto

theorem addAutoStep_keys_mono {st : List (String × SubEntry) × List String}
    {p : String × List SubFormat} {x : String}
    (h : x ∈ st.1.map Prod.fst) : x ∈ (addAutoStep st p).1.map Prod.fst := by
  unfold addAutoStep
  cases hf : COMMON_LANGS.find? (fun pre => p.1.startsWith pre) with
  | none => exact h
  | some pre =>
    dsimp only
    split
    · rw [dictInsert_keys]
      exact Or.inl h
    · exact h

theorem auto_fold_keys_mono :
    ∀ (as : List (String × List SubFormat))
      (st : List (String × SubEntry) × List String) (x : String),
      x ∈ st.1.map Prod.fst → x ∈ ((as.foldl addAutoStep st).1).map Prod.fst := by
  intro as
  induction as with
  | nil => intro st x h; exact h
  | cons p rest ih =>
    intro st x h
    simp only [List.foldl_cons]
    exact ih (addAutoStep st p) x (addAutoStep_keys_mono h)

theorem auto_fold_keys :
    ∀ (as : List (String × List SubFormat))
      (st : List (String × SubEntry) × List String) (x : String),
      x ∈ ((as.foldl addAutoStep st).1).map Prod.fst →
      x ∈ st.1.map Prod.fst ∨
        (x ∈ as.map Prod.fst ∧
          (∃ pre ∈ COMMON_LANGS, x.startsWith pre = true) ∧
          x ∉ st.1.map Prod.fst) := by
  intro as
  induction as with
  | nil => intro st x h; exact Or.inl h
  | cons p rest ih =>
    intro st x hx
    simp only [List.foldl_cons] at hx
    rcases ih (addAutoStep st p) x hx with h1 | ⟨h2a, h2b, h2c⟩
    · unfold addAutoStep at h1
      cases hf : COMMON_LANGS.find? (fun pre => p.1.startsWith pre) with
      | none =>
        rw [hf] at h1
        exact Or.inl h1
      | some pre =>
        rw [hf] at h1
        dsimp only at h1
        split at h1
        · next hguard =>
          rw [dictInsert_keys] at h1
          rcases h1 with h1a | h1b
          · exact Or.inl h1a
          · subst h1b
            right
            refine ⟨by simp, ⟨pre, List.mem_of_find?_eq_some hf,
              List.find?_some hf⟩, ?_⟩
            intro hmem
            have hcontains := (dictContains_iff st.1 p.1).mpr hmem
            simp only [Bool.and_eq_true, Bool.not_eq_true'] at hguard
            rw [hguard.2] at hcontains
            exact absurd hcontains (by simp)
        · exact Or.inl h1
    · right
      refine ⟨by simp [h2a], h2b, ?_⟩
      intro hmem
      exact h2c (addAutoStep_keys_mono hmem)

set_option maxHeartbeats 1000000 in
theorem addAutoStep_unique (mkeys : List String)
    (st : List (String × SubEntry) × List String) (p : String × List SubFormat)
    (hC : ∀ x ∈ st.1.map Prod.fst, x ∉ mkeys → ∃ pre,
      COMMON_LANGS.find? (fun q => x.startsWith q) = some pre ∧ pre ∈ st.2)
    (hD : ∀ x y, x ∈ st.1.map Prod.fst → y ∈ st.1.map Prod.fst →
      x ∉ mkeys → y ∉ mkeys →
      COMMON_LANGS.find? (fun q => x.startsWith q) =
        COMMON_LANGS.find? (fun q => y.startsWith q) → x = y) :
    (∀ x ∈ (addAutoStep st p).1.map Prod.fst, x ∉ mkeys → ∃ pre,
      COMMON_LANGS.find? (fun q => x.startsWith q) = some pre ∧
        pre ∈ (addAutoStep st p).2) ∧
    (∀ x y, x ∈ (addAutoStep st p).1.map Prod.fst →
      y ∈ (addAutoStep st p).1.map Prod.fst →
      x ∉ mkeys → y ∉ mkeys →
      COMMON_LANGS.find? (fun q => x.startsWith q) =
        COMMON_LANGS.find? (fun q => y.startsWith q) → x = y) := by
  unfold addAutoStep
  cases hf : COMMON_LANGS.find? (fun pre => p.1.startsWith pre) with
  | none => exact ⟨hC, hD⟩
  | some pre =>
    dsimp only
    split
    · next hguard =>
      simp only [Bool.and_eq_true, Bool.not_eq_true'] at hguard
      constructor
      · intro x hx hxm
        rw [dictInsert_keys] at hx
        rcases hx with hx1 | hx2
        · obtain ⟨q, hq1, hq2⟩ := hC x hx1 hxm
          exact ⟨q, hq1, List.mem_cons_of_mem _ hq2⟩
        · subst hx2
          exact ⟨pre, hf, List.mem_cons_self _ _⟩
      · intro x y hx hy hxm hym heq
        rw [dictInsert_keys] at hx hy
        have hprenot : pre ∉ st.2 := by
          intro hmem
          have : st.2.contains pre = true := by simp [hmem]
          rw [hguard.1] at this
          exact absurd this (by simp)
        rcases hx with hx1 | hx2 <;> rcases hy with hy1 | hy2
        · exact hD x y hx1 hy1 hxm hym heq
        · subst hy2
          obtain ⟨q, hq1, hq2⟩ := hC x hx1 hxm
          rw [hq1, hf] at heq
          exact absurd ((Option.some.inj heq) ▸ hq2) hprenot
        · subst hx2
          obtain ⟨q, hq1, hq2⟩ := hC y hy1 hym
          rw [hq1, hf] at heq
          exact absurd ((Option.some.inj heq) ▸ hq2) hprenot
        · rw [hx2, hy2]
    · exact ⟨hC, hD⟩

theorem auto_fold_unique (mkeys : List String) :
    ∀ (as : List (String × List SubFormat))
      (st : List (String × SubEntry) × List String),
      (∀ x ∈ st.1.map Prod.fst, x ∉ mkeys → ∃ pre,
        COMMON_LANGS.find? (fun q => x.startsWith q) = some pre ∧ pre ∈ st.2) →
      (∀ x y, x ∈ st.1.map Prod.fst → y ∈ st.1.map Prod.fst →
        x ∉ mkeys → y ∉ mkeys →
        COMMON_LANGS.find? (fun q => x.startsWith q) =
          COMMON_LANGS.find? (fun q => y.startsWith q) → x = y) →
      (∀ x y, x ∈ ((as.foldl addAutoStep st).1).map Prod.fst →
        y ∈ ((as.foldl addAutoStep st).1).map Prod.fst →
        x ∉ mkeys → y ∉ mkeys →
        COMMON_LANGS.find? (fun q => x.startsWith q) =
          COMMON_LANGS.find? (fun q => y.startsWith q) → x = y) := by
  intro as
  induction as with
  | nil => intro st _ hD; exact hD
  | cons p rest ih =>
    intro st hC hD
    simp only [List.foldl_cons]
    obtain ⟨hC', hD'⟩ := addAutoStep_unique mkeys st p hC hD
    exact ih (addAutoStep st p) hC' hD'

/-- C10: the subtitle catalog includes every language of the manual
subtitles mapping; every other language in the catalog comes from the
automatic captions, starts with one of the allow-listed stems (zh-Hant,
zh-Hans, en) and is not a manual language (all other automatic captions
are omitted); and at most one automatic track is kept per stem — two
distinct non-manual catalog languages never share their first matching
stem. -/
theorem get_available_subtitles_spec (ms autos : List (String × List SubFormat)) :
    (∀ lang ∈ ms.map Prod.fst,
      lang ∈ (get_available_subtitles (some ⟨some ms, some autos⟩)).map Prod.fst) ∧
    (∀ lang ∈ (get_available_subtitles (some ⟨some ms, some autos⟩)).map Prod.fst,
      lang ∈ ms.map Prod.fst ∨
        (lang ∈ autos.map Prod.fst ∧
          (∃ pre ∈ COMMON_LANGS, lang.startsWith pre = true) ∧
          lang ∉ ms.map Prod.fst)) ∧
    (∀ x y,
      x ∈ (get_available_subtitles (some ⟨some ms, some autos⟩)).map Prod.fst →
      y ∈ (get_available_subtitles (some ⟨some ms, some autos⟩)).map Prod.fst →
      x ∉ ms.map Prod.fst → y ∉ ms.map Prod.fst →
      COMMON_LANGS.find? (fun q => x.startsWith q) =
        COMMON_LANGS.find? (fun q => y.startsWith q) → x = y) := by
  have hmain : get_available_subtitles (some ⟨some ms, some autos⟩) =
      (autos.foldl addAutoStep ((ms.foldl addManualStep []), [])).1 := rfl
  refine ⟨?_, ?_, ?_⟩
  · intro lang hlang
    rw [hmain]
    exact auto_fold_keys_mono autos _ lang
      ((manual_fold_keys ms [] lang).mpr (Or.inr hlang))
  · intro lang hlang
    rw [hmain] at hlang
    rcases auto_fold_keys autos _ lang hlang with h1 | ⟨h2a, h2b, h2c⟩
    · left
      rcases (manual_fold_keys ms [] lang).mp h1 with h1a | h1b
      · simp at h1a
      · exact h1b
    · right
      refine ⟨h2a, h2b, fun hm => h2c ?_⟩
      exact (manual_fold_keys ms [] lang).mpr (Or.inr hm)
  · have hC0 : ∀ x ∈ (ms.foldl addManualStep []).map Prod.fst,
        x ∉ ms.map Prod.fst → ∃ pre,
          COMMON_LANGS.find? (fun q => x.startsWith q) = some pre ∧
            pre ∈ ([] : List String) := by
      intro x hx hxm
      exfalso
      rcases (manual_fold_keys ms [] x).mp hx with h1 | h2
      · simp at h1
      · exact hxm h2
    have hD0 : ∀ x y, x ∈ (ms.foldl addManualStep []).map Prod.fst →
        y ∈ (ms.foldl addManualStep []).map Prod.fst →
        x ∉ ms.map Prod.fst → y ∉ ms.map Prod.fst →
        COMMON_LANGS.find? (fun q => x.startsWith q) =
          COMMON_LANGS.find? (fun q => y.startsWith q) → x = y := by
      intro x y hx _ hxm _ _
      exfalso
      rcases (manual_fold_keys ms [] x).mp hx with h1 | h2
      · simp at h1
      · exact hxm h2
    have hD := auto_fold_unique (ms.map Prod.fst) autos
      ((ms.foldl addManualStep []), []) hC0 hD0
    intro x y hx hy hxm hym heq
    rw [hmain] at hx hy
    exact hD x y hx hy hxm hym heq

theorem get_available_subtitles_spec_witness :
    "en" ∈ (get_available_subtitles
      (some ⟨some [("en", [])], some [("zh-Hant-TW", []), ("fr", [])]⟩)).map
        Prod.fst :=
  (get_available_subtitles_spec [("en", [])]
      [("zh-Hant-TW", []), ("fr", [])]).1 "en" (by simp)
